import Mathlib

/-!
Shallow embedding of the yard/slot management engine from
`src/yard-wireframe/src/App.jsx` (the file `src/unnamed/part_000` contains the
same engine functions verbatim, plus extra view code).

State kept by the component:
  containers : object mapping container id to container record
  inboundIds : array of container ids, newest first
  layout     : object mapping slot id to stack (array) of container ids
  prevSig    : object mapping slot id to the last acknowledged signature

JavaScript objects are modelled as association lists `List (String × _)`;
`obj[k]` becomes `getObj` (with `.getD` supplying the `|| fallback` /
`?? fallback` defaults the source uses), and `{ ...obj, [k]: v }` /
`obj[k] = v` becomes `setObj` (replace in place if the key exists, append
otherwise — matching JS key-ordering semantics).

Container records carry several fields; the engine logic only reads/writes
`status` and `slotId`, so the embedding keeps `id`, `status` and `slotId` and
omits the wall-clock timestamp fields (`createdAt`, `placedAt`, `movedAt`,
`updatedAt`) and the random cosmetic fields (size/type/priority/owner),
none of which any control path of the engine reads.  Where JS spreads an
`undefined` record (producing an object with no `id` field), the embedding
uses the empty string for `id`.
-/

/-- Configuration record mirroring DEFAULT_CONFIG in the source
(zones, rowsPerZone, colsPerZone, stackLimit); stackLimit is the
per-slot capacity. -/
structure Config where
  zones : List String
  rowsPerZone : Nat
  colsPerZone : Nat
  stackLimit : Nat
deriving Repr, DecidableEq

/-- Container record (see module docstring: only the fields the engine logic
touches are modelled). -/
structure Container where
  id : String
  status : String
  slotId : Option String
deriving Repr, DecidableEq

abbrev Stack := List String
abbrev Layout := List (String × Stack)
abbrev Store := List (String × Container)
abbrev SigMap := List (String × String)

/-- Engine state: the four collections owned by the component. -/
structure EngineState where
  containers : Store
  inboundIds : List String
  layout : Layout
  prevSig : SigMap
deriving Repr, DecidableEq

/-- JavaScript object read `obj[k]`: value at the key, if present. -/
def getObj {β : Type} (l : List (String × β)) (k : String) : Option β :=
  match l.find? (fun p => p.1 == k) with
  | some p => some p.2
  | none => none

/-- JavaScript object write `{ ...obj, [k]: v }` / `obj[k] = v`: replace the
value at an existing key in place, otherwise append the new key at the end. -/
def setObj {β : Type} (l : List (String × β)) (k : String) (v : β) :
    List (String × β) :=
  if l.any (fun p => p.1 == k) then
    l.map (fun p => if p.1 == k then (k, v) else p)
  else
    l ++ [(k, v)]

/-- JavaScript `layout[s] || []`. -/
def lookupSlot (layout : Layout) (s : String) : Stack :=
  (getObj layout s).getD []

/-- JavaScript `prevSigMap?.[slotId] ?? ""`. -/
def lookupSig (m : SigMap) (s : String) : String :=
  (getObj m s).getD ""

/-- Model of JavaScript `String(n).padStart(2, "0")` for a natural number. -/
def pad2 (n : Nat) : String :=
  let s := toString n
  if s.length < 2 then "0" ++ s else s

/-- Source `buildSlotId(zone, r, c)`: the slot id string
zone ++ "-R" ++ pad2 r ++ "-C" ++ pad2 c. -/
def buildSlotId (zone : String) (r c : Nat) : String :=
  zone ++ "-R" ++ pad2 r ++ "-C" ++ pad2 c

/-- Source `allSlots` memo: zones outer, rows middle, columns inner,
rows/columns 1-indexed. -/
def allSlots (cfg : Config) : List String :=
  cfg.zones.flatMap fun z =>
    (List.range cfg.rowsPerZone).flatMap fun r =>
      (List.range cfg.colsPerZone).map fun c => buildSlotId z (r + 1) (c + 1)

/-- Source `slotSignature(stack)`: `stack.join("|")` — identifiers concatenated
in order with the separator "|"; empty stack gives the empty string. -/
def slotSignature : Stack → String
  | [] => ""
  | [x] => x
  | x :: xs => x ++ "|" ++ slotSignature xs

/-- Concatenation of all stacks of a layout, in entry order (the union of all
slot stacks, as a list). -/
def stacksFlat : Layout → List String
  | [] => []
  | p :: l => p.2 ++ stacksFlat l

/-- Source `computeChangedSlots(layout, prevSigMap)`: slots whose current
signature differs from the baseline entry (missing baseline entry treated as
""), plus slots present in the baseline but absent from the layout.  The JS
function returns a Set; the embedding returns the list of its elements, and
claims use only membership / emptiness. -/
def computeChangedSlots (layout : Layout) (prevSig : SigMap) : List String :=
  ((layout.filter fun p => slotSignature p.2 != lookupSig prevSig p.1).map Prod.fst)
    ++ ((prevSig.map Prod.fst).filter fun s => !(layout.any fun p => p.1 == s))

/-- Source `firstAvailableSlot()`: first slot in canonical order whose stack
length is below stackLimit, reading the `layout` state variable. -/
def firstAvailableSlot (cfg : Config) (layout : Layout) : Option String :=
  (allSlots cfg).find? fun s => decide ((lookupSlot layout s).length < cfg.stackLimit)

/-- Source `makeContainer(id)` restricted to the modelled fields: a fresh
record with status INBOUND and no slot reference. -/
def makeContainer (id : String) : Container :=
  { id := id, status := "INBOUND", slotId := none }

/-- Source `pollInbound(count)` (the §4.2 `ingest`): for each new container,
store its record and unshift its id onto the inbound queue (newest first).
The source draws each id from `randomId()` and regenerates while it collides
with a key already present in the growing store; the embedding takes the list
of ids that came out of that collision-checked generation (so claims about
ingest carry the guarantee the loop enforces: the ids are pairwise distinct
and absent from the store). -/
def pollInbound (st : EngineState) (ids : List String) : EngineState :=
  { st with
    containers := ids.foldl (fun cs id => setObj cs id (makeContainer id)) st.containers
    inboundIds := ids.foldl (fun q id => id :: q) st.inboundIds }

/-- One record update of `autoPlace`:
`{ ...newContainers[cid], status: "IN_YARD", placedAt: ..., slotId: slot }`. -/
def placeRecord (c : Option Container) (slot : String) : Container :=
  match c with
  | some c => { c with status := "IN_YARD", slotId := some slot }
  | none => { id := "", status := "IN_YARD", slotId := some slot }

/-- Body of the `while` loop of `autoPlace`.  The loop guard is
`newInbound.length > 0 && placed < n`; `fuel` counts the placements still
allowed (`n - placed`).  IMPORTANT: `firstAvailableSlot` reads the `layout`
state variable of the component, which does not change during one call of
`autoPlace`; the loop mutates only the working copy `newLayout`.  The
embedding therefore passes the frozen `stale` layout to the availability scan
and threads the working copies separately, exactly as the source does. -/
def autoPlaceGo (cfg : Config) (stale : Layout) :
    Nat → Layout → Store → List String → Nat → Layout × Store × List String × Nat
  | 0, newLayout, newContainers, newInbound, placed =>
    (newLayout, newContainers, newInbound, placed)
  | fuel + 1, newLayout, newContainers, newInbound, placed =>
    match newInbound.getLast? with
    | none => (newLayout, newContainers, newInbound, placed)
    | some cid =>
      match firstAvailableSlot cfg stale with
      | none => (newLayout, newContainers, newInbound, placed)
      | some slot =>
        autoPlaceGo cfg stale fuel
          (setObj newLayout slot (lookupSlot newLayout slot ++ [cid]))
          (setObj newContainers cid (placeRecord (getObj newContainers cid) slot))
          newInbound.dropLast (placed + 1)

/-- Source `autoPlace(n)`: place up to `n` inbound containers, popping the
oldest-arrived (last) element of the inbound queue each iteration.  Returns
the new state and the number of containers placed. -/
def autoPlace (cfg : Config) (st : EngineState) (n : Nat) : EngineState × Nat :=
  let r := autoPlaceGo cfg st.layout n st.layout st.containers st.inboundIds 0
  ({ st with layout := r.1, containers := r.2.1, inboundIds := r.2.2.1 }, r.2.2.2)

/-- Outcome of `moveSelectedToSlot`: early return on no selection, the
SlotFull alert path, or a committed move. -/
inductive MoveResult where
  | noSelection
  | slotFull
  | moved
deriving Repr, DecidableEq

/-- Source `moveSelectedToSlot(targetSlotId)`.  `selected` is the component's
`selectedContainerId` (`none` models a null selection).  The working copy —
the container removed from every stack and from the inbound list — gets built
first; if the target stack (after that removal) is at or above stackLimit the
function alerts SlotFull and returns, leaving the live state untouched.
Otherwise the working copies are committed. -/
def moveSelectedToSlot (cfg : Config) (st : EngineState) (selected : Option String)
    (targetSlotId : String) : MoveResult × EngineState :=
  match selected with
  | none => (.noSelection, st)
  | some cid =>
    let newLayout := st.layout.map fun p => (p.1, p.2.filter fun x => x != cid)
    let newInbound := st.inboundIds.filter fun x => x != cid
    let stack := lookupSlot newLayout targetSlotId
    if stack.length ≥ cfg.stackLimit then
      (.slotFull, st)
    else
      let newLayout2 := setObj newLayout targetSlotId (stack ++ [cid])
      let rec0 := match getObj st.containers cid with
        | some c => { c with status := "IN_YARD", slotId := some targetSlotId }
        | none => { id := cid, status := "IN_YARD", slotId := some targetSlotId }
      let newContainers := setObj st.containers cid rec0
      (.moved, { st with layout := newLayout2, inboundIds := newInbound,
                         containers := newContainers })

/-- Source `reorderWithinSlot(slotId, fromIndex, toIndex)`: silent no-op when
either index is outside `[0, stack.length)`; otherwise splice the element at
`fromIndex` out and splice it back in at `toIndex`.  Indices are `Int` since
JS callers may pass any number. -/
def reorderWithinSlot (st : EngineState) (slotId : String)
    (fromIndex toIndex : Int) : EngineState :=
  let stack := lookupSlot st.layout slotId
  if fromIndex < 0 ∨ fromIndex ≥ (stack.length : Int) then st
  else if toIndex < 0 ∨ toIndex ≥ (stack.length : Int) then st
  else
    let f := fromIndex.toNat
    let t := toIndex.toNat
    let item := stack.getD f ""
    let removed := stack.take f ++ stack.drop (f + 1)
    let newStack := removed.take t ++ item :: removed.drop t
    { st with layout := setObj st.layout slotId newStack }

/-- Source `removeFromSlot(slotId, cid)` (the §4.7 `evict`): filter the
container out of the named slot's stack, unshift it onto the inbound queue
(filtering any previous occurrence), and reset its record to INBOUND with a
cleared slot reference. -/
def removeFromSlot (st : EngineState) (slotId cid : String) : EngineState :=
  let rec0 := match getObj st.containers cid with
    | some c => { c with status := "INBOUND", slotId := none }
    | none => { id := "", status := "INBOUND", slotId := none }
  { st with
    layout := setObj st.layout slotId
      ((lookupSlot st.layout slotId).filter fun x => x != cid)
    inboundIds := cid :: st.inboundIds.filter fun x => x != cid
    containers := setObj st.containers cid rec0 }

/-- Source `snapshotSignatures()` (the §4.9 `acknowledge`): replace the whole
baseline with the signature of every slot of the grid in the current layout
(empty slots get the empty signature). -/
def snapshotSignatures (cfg : Config) (st : EngineState) : EngineState :=
  { st with prevSig := (allSlots cfg).map fun s => (s, slotSignature (lookupSlot st.layout s)) }

/-- One invocation of an engine operation, for stating "after every sequence
of operations" claims. -/
inductive Op where
  | poll (ids : List String)
  | auto (n : Nat)
  | move (selected : Option String) (target : String)
  | reorder (slotId : String) (fromIndex toIndex : Int)
  | evict (slotId cid : String)
  | acknowledge
deriving Repr, DecidableEq

/-- Apply one operation to the engine state. -/
def applyOp (cfg : Config) (st : EngineState) : Op → EngineState
  | .poll ids => pollInbound st ids
  | .auto n => (autoPlace cfg st n).1
  | .move sel target => (moveSelectedToSlot cfg st sel target).2
  | .reorder s f t => reorderWithinSlot st s f t
  | .evict s c => removeFromSlot st s c
  | .acknowledge => snapshotSignatures cfg st

/-- Apply a sequence of operations, first element first. -/
def applyOps (cfg : Config) (st : EngineState) : List Op → EngineState
  | [] => st
  | op :: ops => applyOps cfg (applyOp cfg st op) ops

/-- Call-site conditions the source guarantees for an operation: ingest ids
come out of the collision-checked generator (pairwise distinct and absent
from the store), and evict is invoked from a chip rendered inside the slot
whose stack contains the container. -/
def ValidOp (st : EngineState) : Op → Prop
  | .poll ids => ids.Nodup ∧ ∀ id ∈ ids, id ∉ st.containers.map Prod.fst
  | .evict slotId cid => cid ∈ lookupSlot st.layout slotId
  | _ => True

/-- Validity of a whole operation sequence, each op valid in the state it
runs in. -/
def ValidSeq (cfg : Config) (st : EngineState) : List Op → Prop
  | [] => True
  | op :: ops => ValidOp st op ∧ ValidSeq cfg (applyOp cfg st op) ops

/-- Well-formedness of an engine state: layout keys are distinct (JS object),
no container id occurs twice in inbound-queue-plus-stacks, and the container
store keys are exactly the ids sitting in the queue or in some stack. -/
def WF (st : EngineState) : Prop :=
  (st.layout.map Prod.fst).Nodup ∧
  (st.inboundIds ++ stacksFlat st.layout).Nodup ∧
  (∀ x ∈ st.containers.map Prod.fst, x ∈ st.inboundIds ++ stacksFlat st.layout) ∧
  (∀ x ∈ st.inboundIds ++ stacksFlat st.layout, x ∈ st.containers.map Prod.fst)

instance (st : EngineState) (op : Op) : Decidable (ValidOp st op) := by
  cases op <;> simp only [ValidOp] <;> infer_instance

instance (cfg : Config) (st : EngineState) (ops : List Op) :
    Decidable (ValidSeq cfg st ops) := by
  induction ops generalizing st with
  | nil => simp only [ValidSeq]; infer_instance
  | cons op ops ih => simp only [ValidSeq]; exact @instDecidableAnd _ _ _ (ih _)

instance (st : EngineState) : Decidable (WF st) := by
  unfold WF; infer_instance

/-- Modelled from the spec: "total free capacity across all slots" — the sum,
over the grid, of the spare places of each slot.  Used only to state the
auto-place bound of §8 against the code. -/
def specTotalFreeCapacity (cfg : Config) (layout : Layout) : Nat :=
  ((allSlots cfg).map fun s => cfg.stackLimit - (lookupSlot layout s).length).sum

/-- Character-level counterpart of `slotSignature`, used to reason about the
separator. -/
def sigChars : List (List Char) → List Char
  | [] => []
  | [x] => x
  | x :: xs => x ++ '|' :: sigChars xs

/-- Grid with one zone, one row, one column, capacity 1 (72 slots are not
needed to exercise the placement loop). -/
def cfgA1 : Config := { zones := ["A"], rowsPerZone := 1, colsPerZone := 1, stackLimit := 1 }

/-- Grid with one zone, one row, two columns, capacity 2 per slot. -/
def cfgB2 : Config := { zones := ["A"], rowsPerZone := 1, colsPerZone := 2, stackLimit := 2 }

/-- Two freshly ingested containers awaiting placement on the `cfgA1` grid
(inbound queue newest-first: "b" arrived after "a"). -/
def stC1 : EngineState :=
  { containers := [("a", makeContainer "a"), ("b", makeContainer "b")]
    inboundIds := ["b", "a"]
    layout := [("A-R01-C01", [])]
    prevSig := [] }

/-- Three freshly ingested containers awaiting placement on the `cfgB2` grid. -/
def stC2 : EngineState :=
  { containers := [("c1", makeContainer "c1"), ("c2", makeContainer "c2"),
                   ("c3", makeContainer "c3")]
    inboundIds := ["c3", "c2", "c1"]
    layout := [("A-R01-C01", []), ("A-R01-C02", [])]
    prevSig := [] }

/-- State on the `cfgB2` grid whose first slot is at capacity. -/
def stFull : EngineState :=
  { containers := [("a", { id := "a", status := "IN_YARD", slotId := some "A-R01-C01" }),
                   ("b", { id := "b", status := "IN_YARD", slotId := some "A-R01-C01" })]
    inboundIds := []
    layout := [("A-R01-C01", ["a", "b"]), ("A-R01-C02", [])]
    prevSig := [] }

/- ------------------------------------------------------------------ -/
/- Association-list lemmas for the object model.                       -/
/- ------------------------------------------------------------------ -/

section ObjLemmas

variable {β : Type}

theorem any_keys_iff (l : List (String × β)) (s : String) :
    (l.any fun p => p.1 == s) = true ↔ s ∈ l.map Prod.fst := by
  simp only [List.any_eq_true, List.mem_map, beq_iff_eq]

theorem not_mem_keys_cons {p : String × β} {l : List (String × β)} {s : String}
    (h : s ∉ (p :: l).map Prod.fst) : p.1 ≠ s ∧ s ∉ l.map Prod.fst := by
  simp only [List.map_cons, List.mem_cons, not_or] at h
  exact ⟨fun he => h.1 he.symm, h.2⟩

theorem mem_keys_tail {p : String × β} {l : List (String × β)} {s : String}
    (h : s ∈ l.map Prod.fst) : s ∈ (p :: l).map Prod.fst := by
  simp only [List.map_cons, List.mem_cons]
  exact Or.inr h

theorem getObj_nil (s : String) : getObj ([] : List (String × β)) s = none := rfl

theorem getObj_cons (k : String) (w : β) (l : List (String × β)) (s : String) :
    getObj ((k, w) :: l) s = if k = s then some w else getObj l s := by
  by_cases h : k = s
  · subst h
    simp [getObj, List.find?_cons_of_pos]
  · simp [getObj, List.find?_cons_of_neg, h]

theorem getObj_isSome_of_mem_keys {l : List (String × β)} {s : String}
    (h : s ∈ l.map Prod.fst) : ∃ v, getObj l s = some v := by
  induction l with
  | nil => cases h
  | cons p l ih =>
    rcases p with ⟨k, w⟩
    rw [getObj_cons]
    by_cases hk : k = s
    · rw [if_pos hk]; exact ⟨w, rfl⟩
    · rw [if_neg hk]
      apply ih
      simp only [List.map_cons, List.mem_cons] at h
      rcases h with h | h
      · exact absurd h.symm hk
      · exact h

theorem getObj_of_not_mem {l : List (String × β)} {s : String}
    (h : s ∉ l.map Prod.fst) : getObj l s = none := by
  induction l with
  | nil => rfl
  | cons p l ih =>
    rcases p with ⟨k, w⟩
    rw [getObj_cons, if_neg (not_mem_keys_cons h).1]
    exact ih (not_mem_keys_cons h).2

theorem mem_keys_of_getObj {l : List (String × β)} {s : String} {v : β}
    (h : getObj l s = some v) : s ∈ l.map Prod.fst := by
  by_contra hc
  rw [getObj_of_not_mem hc] at h
  cases h

theorem mem_of_getObj {l : List (String × β)} {s : String} {v : β}
    (h : getObj l s = some v) : (s, v) ∈ l := by
  induction l with
  | nil => cases h
  | cons p l ih =>
    rcases p with ⟨k, w⟩
    rw [getObj_cons] at h
    by_cases hk : k = s
    · rw [if_pos hk] at h
      cases h
      exact hk ▸ List.mem_cons_self _ _
    · rw [if_neg hk] at h
      exact List.mem_cons_of_mem _ (ih h)

theorem getObj_eq_of_mem {l : List (String × β)} {s : String} {v : β}
    (hnd : (l.map Prod.fst).Nodup) (hmem : (s, v) ∈ l) :
    getObj l s = some v := by
  induction l with
  | nil => cases hmem
  | cons p l ih =>
    rcases p with ⟨k, w⟩
    rw [getObj_cons]
    rcases List.mem_cons.1 hmem with h | h
    · cases h; simp
    · have hk : k ≠ s := by
        rintro rfl
        exact (List.nodup_cons.1 hnd).1 (List.mem_map.2 ⟨(k, v), h, rfl⟩)
      rw [if_neg hk]
      exact ih (List.nodup_cons.1 hnd).2 h

theorem setObj_of_mem {l : List (String × β)} {s : String} (v : β)
    (h : s ∈ l.map Prod.fst) :
    setObj l s v = l.map fun p => if p.1 == s then (s, v) else p := by
  unfold setObj
  rw [if_pos ((any_keys_iff l s).2 h)]

theorem setObj_of_not_mem {l : List (String × β)} {s : String} (v : β)
    (h : s ∉ l.map Prod.fst) :
    setObj l s v = l ++ [(s, v)] := by
  unfold setObj
  rw [if_neg]
  intro hc
  exact h ((any_keys_iff l s).1 hc)

theorem keys_replace (l : List (String × β)) (s : String) (v : β) :
    (l.map fun p => if p.1 == s then (s, v) else p).map Prod.fst = l.map Prod.fst := by
  induction l with
  | nil => rfl
  | cons p l ih =>
    rcases p with ⟨k, w⟩
    by_cases h : k = s
    · subst h
      simp only [List.map_cons]
      rw [ih]
      simp
    · simp only [List.map_cons]
      rw [ih]
      simp [h]

theorem keys_setObj_of_mem {l : List (String × β)} {s : String} (v : β)
    (h : s ∈ l.map Prod.fst) :
    (setObj l s v).map Prod.fst = l.map Prod.fst := by
  rw [setObj_of_mem v h, keys_replace]

theorem keys_setObj_of_not_mem {l : List (String × β)} {s : String} (v : β)
    (h : s ∉ l.map Prod.fst) :
    (setObj l s v).map Prod.fst = l.map Prod.fst ++ [s] := by
  rw [setObj_of_not_mem v h, List.map_append]
  rfl

theorem mem_keys_setObj {l : List (String × β)} {s x : String} (v : β) :
    x ∈ (setObj l s v).map Prod.fst ↔ x ∈ l.map Prod.fst ∨ x = s := by
  by_cases h : s ∈ l.map Prod.fst
  · rw [keys_setObj_of_mem v h]
    constructor
    · exact Or.inl
    · rintro (hx | rfl)
      · exact hx
      · exact h
  · rw [keys_setObj_of_not_mem v h]
    simp

theorem keys_setObj_nodup {l : List (String × β)} {s : String} (v : β)
    (h : (l.map Prod.fst).Nodup) : ((setObj l s v).map Prod.fst).Nodup := by
  by_cases hm : s ∈ l.map Prod.fst
  · rw [keys_setObj_of_mem v hm]; exact h
  · rw [keys_setObj_of_not_mem v hm]
    refine List.Nodup.append h (List.nodup_singleton s) ?_
    intro a ha hb
    rw [List.mem_singleton] at hb
    subst hb
    exact hm ha

theorem getObj_replace_self {l : List (String × β)} {s : String} (v : β)
    (h : s ∈ l.map Prod.fst) :
    getObj (l.map fun p => if p.1 == s then (s, v) else p) s = some v := by
  induction l with
  | nil => cases h
  | cons p l ih =>
    rcases p with ⟨k, w⟩
    by_cases hp : k = s
    · subst hp
      simp only [List.map_cons]
      rw [show (if ((k, w).1 == k) = true then (k, v) else (k, w)) = (k, v) by simp,
        getObj_cons, if_pos rfl]
    · simp only [List.map_cons]
      rw [show (if ((k, w).1 == s) = true then (s, v) else (k, w)) = (k, w) by simp [hp],
        getObj_cons, if_neg hp]
      apply ih
      simp only [List.map_cons, List.mem_cons] at h
      rcases h with h | h
      · exact absurd h.symm hp
      · exact h

theorem getObj_replace_ne {l : List (String × β)} {s k : String} (v : β)
    (h : k ≠ s) :
    getObj (l.map fun p => if p.1 == s then (s, v) else p) k = getObj l k := by
  induction l with
  | nil => rfl
  | cons p l ih =>
    rcases p with ⟨k2, w⟩
    simp only [List.map_cons]
    by_cases hp : k2 = s
    · subst hp
      rw [show (if ((k2, w).1 == k2) = true then (k2, v) else (k2, w)) = (k2, v) by simp,
        getObj_cons, getObj_cons, if_neg (fun he => h he.symm),
        if_neg (fun he => h he.symm)]
      exact ih
    · rw [show (if ((k2, w).1 == s) = true then (s, v) else (k2, w)) = (k2, w) by simp [hp],
        getObj_cons, getObj_cons]
      by_cases hkk : k2 = k
      · simp [hkk]
      · rw [if_neg hkk, if_neg hkk]; exact ih

theorem getObj_append_single {l : List (String × β)} {s : String} (v : β) :
    getObj (l ++ [(s, v)]) s = (getObj l s).orElse fun _ => some v := by
  induction l with
  | nil => simp [getObj_cons, getObj_nil, Option.orElse]
  | cons p l ih =>
    rcases p with ⟨k, w⟩
    rw [List.cons_append, getObj_cons, getObj_cons]
    by_cases hk : k = s
    · simp [hk, Option.orElse]
    · rw [if_neg hk, if_neg hk]; exact ih

theorem replace_of_not_mem {l : List (String × β)} {s : String} (v : β)
    (h : s ∉ l.map Prod.fst) :
    (l.map fun p => if p.1 == s then (s, v) else p) = l := by
  induction l with
  | nil => rfl
  | cons p l ih =>
    rcases p with ⟨k, w⟩
    simp only [List.map_cons]
    rw [show (if ((k, w).1 == s) = true then (s, v) else (k, w)) = (k, w) by
        simp [(not_mem_keys_cons h).1], ih (not_mem_keys_cons h).2]

theorem getObj_setObj_self (l : List (String × β)) (s : String) (v : β) :
    getObj (setObj l s v) s = some v := by
  by_cases h : s ∈ l.map Prod.fst
  · rw [setObj_of_mem v h]
    exact getObj_replace_self v h
  · rw [setObj_of_not_mem v h, getObj_append_single, getObj_of_not_mem h]
    rfl

theorem getObj_setObj_ne (l : List (String × β)) {s k : String} (v : β)
    (h : k ≠ s) : getObj (setObj l s v) k = getObj l k := by
  by_cases hm : s ∈ l.map Prod.fst
  · rw [setObj_of_mem v hm]
    exact getObj_replace_ne v h
  · rw [setObj_of_not_mem v hm]
    clear hm
    induction l with
    | nil =>
      rw [List.nil_append, getObj_cons, if_neg (fun he => h he.symm)]
    | cons p l ih =>
      rcases p with ⟨k2, w⟩
      rw [List.cons_append, getObj_cons, getObj_cons]
      by_cases hkk : k2 = k
      · simp [hkk]
      · rw [if_neg hkk, if_neg hkk]
        exact ih

end ObjLemmas

theorem lookupSlot_setObj_self (L : Layout) (s : String) (v : Stack) :
    lookupSlot (setObj L s v) s = v := by
  rw [lookupSlot, getObj_setObj_self]; rfl

theorem lookupSlot_setObj_ne (L : Layout) {s k : String} (v : Stack) (h : k ≠ s) :
    lookupSlot (setObj L s v) k = lookupSlot L k := by
  rw [lookupSlot, getObj_setObj_ne L v h]; rfl

theorem lookupSlot_of_not_mem {L : Layout} {s : String}
    (h : s ∉ L.map Prod.fst) : lookupSlot L s = [] := by
  rw [lookupSlot, getObj_of_not_mem h]; rfl

theorem lookupSlot_eq_of_mem {L : Layout} {s : String} {v : Stack}
    (hnd : (L.map Prod.fst).Nodup) (hmem : (s, v) ∈ L) : lookupSlot L s = v := by
  rw [lookupSlot, getObj_eq_of_mem hnd hmem]; rfl

theorem mem_of_lookupSlot {L : Layout} {s : String} (h : s ∈ L.map Prod.fst) :
    (s, lookupSlot L s) ∈ L := by
  rcases getObj_isSome_of_mem_keys h with ⟨v, hv⟩
  have := mem_of_getObj hv
  rwa [lookupSlot, hv]

theorem lookupSlot_cons (k : String) (w : Stack) (L : Layout) (s : String) :
    lookupSlot ((k, w) :: L) s = if k = s then w else lookupSlot L s := by
  rw [lookupSlot, getObj_cons]
  by_cases h : k = s
  · rw [if_pos h, if_pos h]; rfl
  · rw [if_neg h, if_neg h]; rfl

theorem stacksFlat_append (L1 L2 : Layout) :
    stacksFlat (L1 ++ L2) = stacksFlat L1 ++ stacksFlat L2 := by
  induction L1 with
  | nil => rfl
  | cons p L1 ih => simp [stacksFlat, ih]

theorem keys_mapFilter (L : Layout) (q : String → Bool) :
    (L.map fun p => (p.1, p.2.filter q)).map Prod.fst = L.map Prod.fst := by
  induction L with
  | nil => rfl
  | cons p L ih => simp [ih]

theorem lookupSlot_mapFilter (L : Layout) (q : String → Bool) (s : String) :
    lookupSlot (L.map fun p => (p.1, p.2.filter q)) s = (lookupSlot L s).filter q := by
  induction L with
  | nil => rfl
  | cons p L ih =>
    rcases p with ⟨k, w⟩
    simp only [List.map_cons]
    rw [lookupSlot_cons, lookupSlot_cons]
    by_cases h : k = s
    · rw [if_pos h, if_pos h]
    · rw [if_neg h, if_neg h, ih]

theorem stacksFlat_mapFilter (L : Layout) (q : String → Bool) :
    stacksFlat (L.map fun p => (p.1, p.2.filter q)) = (stacksFlat L).filter q := by
  induction L with
  | nil => rfl
  | cons p L ih =>
    simp only [List.map_cons, stacksFlat, List.filter_append, ih]

theorem count_filter_bne (l : List String) (a x : String) :
    (l.filter fun y => y != a).count x = if x = a then 0 else l.count x := by
  by_cases h : x = a
  · subst h
    rw [if_pos rfl, List.count_eq_zero]
    intro hmem
    have := (List.mem_filter.1 hmem).2
    simp at this
  · rw [if_neg h]
    exact List.count_filter (by simpa using h)

theorem filter_bne_of_not_mem {l : List String} {a : String} (h : a ∉ l) :
    l.filter (fun y => y != a) = l := by
  apply List.filter_eq_self.mpr
  intro y hy
  simp only [bne_iff_ne, ne_eq, decide_eq_true_eq]
  rintro rfl
  exact h hy

theorem length_filter_bne_of_nodup {l : List String} {a : String}
    (hnd : l.Nodup) (hmem : a ∈ l) :
    (l.filter fun y => y != a).length + 1 = l.length := by
  have hsplit : l.length = (l.filter fun y => y != a).length
      + (l.filter fun y => !(y != a)).length :=
    List.length_eq_length_filter_add _
  have hfun : (fun y : String => !(y != a)) = fun y => y == a := by
    funext y
    simp [bne]
  have hcount : (l.filter fun y => y == a).length = l.count a := by
    rw [List.count, List.countP_eq_length_filter]
  have hone : l.count a = 1 := by
    have h1 := List.nodup_iff_count_le_one.1 hnd a
    have h2 := List.count_pos_iff.2 hmem
    omega
  rw [hfun, hcount, hone] at hsplit
  omega

theorem count_stacksFlat_replace {L : Layout} {s : String} (v : Stack) (x : String)
    (hnd : (L.map Prod.fst).Nodup) (hm : s ∈ L.map Prod.fst) :
    (stacksFlat (L.map fun p => if p.1 == s then (s, v) else p)).count x
        + (lookupSlot L s).count x
      = v.count x + (stacksFlat L).count x := by
  induction L with
  | nil => cases hm
  | cons p L ih =>
    rcases p with ⟨k, w⟩
    by_cases hk : k = s
    · subst hk
      have hnotail : k ∉ L.map Prod.fst := (List.nodup_cons.1 hnd).1
      simp only [List.map_cons]
      rw [show (if ((k, w).1 == k) = true then (k, v) else (k, w)) = (k, v) by simp,
        replace_of_not_mem v hnotail, lookupSlot_cons, if_pos rfl]
      simp only [stacksFlat, List.count_append]
      omega
    · have hmtail : s ∈ L.map Prod.fst := by
        simp only [List.map_cons, List.mem_cons] at hm
        rcases hm with hm | hm
        · exact absurd hm.symm hk
        · exact hm
      simp only [List.map_cons]
      rw [show (if ((k, w).1 == s) = true then (s, v) else (k, w)) = (k, w) by simp [hk],
        lookupSlot_cons, if_neg hk]
      simp only [stacksFlat, List.count_append]
      have := ih (List.nodup_cons.1 hnd).2 hmtail
      omega

theorem count_stacksFlat_setObj (L : Layout) (s : String) (v : Stack) (x : String)
    (hnd : (L.map Prod.fst).Nodup) :
    (stacksFlat (setObj L s v)).count x + (lookupSlot L s).count x
      = v.count x + (stacksFlat L).count x := by
  by_cases hm : s ∈ L.map Prod.fst
  · rw [setObj_of_mem v hm]
    exact count_stacksFlat_replace v x hnd hm
  · rw [setObj_of_not_mem v hm, stacksFlat_append, lookupSlot_of_not_mem hm]
    simp only [stacksFlat, List.count_append, List.append_nil, List.count_nil]
    omega

theorem count_lookupSlot_le (L : Layout) (s : String) (x : String)
    (hnd : (L.map Prod.fst).Nodup) :
    (lookupSlot L s).count x ≤ (stacksFlat L).count x := by
  have := count_stacksFlat_setObj L s ([] : Stack) x hnd
  simp only [List.count_nil] at this
  omega

/- ------------------------------------------------------------------ -/
/- Claim theorems.                                                     -/
/- ------------------------------------------------------------------ -/

/-- C1: the claim says `autoPlace(n)` places
min(n, |InboundQueue|, total free capacity) containers and never exceeds any
slot's capacity.  The code violates this: `firstAvailableSlot` reads the
stale `layout` state variable, so every loop iteration picks the same slot.
On a one-slot grid of capacity 1 with two inbound containers, the spec bound
is min(2, 2, 1) = 1, yet `autoPlace(2)` reports 2 placements and leaves a
stack of length 2 > stackLimit = 1 in the slot. -/
theorem autoPlace_stale_layout_bug :
    Nat.min 2 (Nat.min stC1.inboundIds.length (specTotalFreeCapacity cfgA1 stC1.layout)) = 1
    ∧ (autoPlace cfgA1 stC1 2).2 = 2
    ∧ lookupSlot (autoPlace cfgA1 stC1 2).1.layout "A-R01-C01" = ["a", "b"]
    ∧ cfgA1.stackLimit
        < (lookupSlot (autoPlace cfgA1 stC1 2).1.layout "A-R01-C01").length := by
  decide

/-- C2: the claim says the capacity bound |stack| ≤ stackLimit (and
no-duplicate property) is preserved by every operation sequence from a
well-formed state.  The same stale-layout slip of `autoPlace` violates the
capacity half: from a well-formed state on a two-slot grid of capacity 2
with three inbound containers, `autoPlace(3)` stacks all three into the
first slot, whose stack then has length 3 > 2. -/
theorem capacity_invariant_broken_by_autoPlace :
    WF stC2
    ∧ (∀ p ∈ stC2.layout, p.2.length ≤ cfgB2.stackLimit)
    ∧ ¬ (∀ p ∈ (applyOp cfgB2 stC2 (Op.auto 3)).layout,
          p.2.length ≤ cfgB2.stackLimit) := by
  decide

/-- C3 counterexample: the claim says a move into a slot already at capacity
always fails with SlotFull and changes nothing.  When the moved container is
itself already in the target slot, the capacity test runs on the working copy
after removal, so the move succeeds and the state changes: slot A-R01-C01
holds ["a","b"] (at capacity 2) and moving "a" there yields ["b","a"]. -/
theorem move_full_slot_counterexample :
    (lookupSlot stFull.layout "A-R01-C01").length = cfgB2.stackLimit
    ∧ (moveSelectedToSlot cfgB2 stFull (some "a") "A-R01-C01").1 = MoveResult.moved
    ∧ lookupSlot (moveSelectedToSlot cfgB2 stFull (some "a") "A-R01-C01").2.layout
        "A-R01-C01" = ["b", "a"] := by
  decide

/-- C3 amended: for every container id that is NOT already in the target
slot's stack, a move into a slot at (or above) capacity fails with SlotFull
and returns the state exactly equal to the pre-call state (Container Store,
Inbound Queue, Layout and Baseline all untouched). -/
theorem move_full_slot_atomic (cfg : Config) (st : EngineState) (cid target : String)
    (hnotin : cid ∉ lookupSlot st.layout target)
    (hfull : cfg.stackLimit ≤ (lookupSlot st.layout target).length) :
    moveSelectedToSlot cfg st (some cid) target = (MoveResult.slotFull, st) := by
  have hfil : (lookupSlot st.layout target).filter (fun x => x != cid)
      = lookupSlot st.layout target := filter_bne_of_not_mem hnotin
  simp only [moveSelectedToSlot, lookupSlot_mapFilter, hfil]
  rw [if_pos hfull]

theorem move_full_slot_atomic_witness :
    "x" ∉ lookupSlot stFull.layout "A-R01-C01"
    ∧ cfgB2.stackLimit ≤ (lookupSlot stFull.layout "A-R01-C01").length
    ∧ moveSelectedToSlot cfgB2 stFull (some "x") "A-R01-C01"
        = (MoveResult.slotFull, stFull) :=
  ⟨by decide, by decide,
    move_full_slot_atomic cfgB2 stFull "x" "A-R01-C01" (by decide) (by decide)⟩

/-- C4 counterexample: the claim says an operation referencing a container id
absent from the Container Store reports UnknownContainer and mutates nothing.
The code has no such error path: moving the unknown id "GHOST" to a slot with
space succeeds (result `moved`, not an error) and mutates both the Layout and
the Container Store. -/
theorem move_unknown_counterexample :
    getObj stFull.containers "GHOST" = none
    ∧ (moveSelectedToSlot cfgB2 stFull (some "GHOST") "A-R01-C02").1 = MoveResult.moved
    ∧ (moveSelectedToSlot cfgB2 stFull (some "GHOST") "A-R01-C02").2 ≠ stFull := by
  decide

/-- C4 amended: the code defines no UnknownContainer error.  A move whose
container id is absent from the Container Store proceeds like any other move;
when the target slot has space it commits, appending the id to the target
stack and creating a fresh store record { id, status: IN_YARD,
slotId: target } for it — so state IS mutated. -/
theorem move_unknown_container_commits (cfg : Config) (st : EngineState)
    (cid target : String)
    (hunknown : getObj st.containers cid = none)
    (hnotin : cid ∉ lookupSlot st.layout target)
    (hspace : (lookupSlot st.layout target).length < cfg.stackLimit) :
    (moveSelectedToSlot cfg st (some cid) target).1 = MoveResult.moved
    ∧ getObj (moveSelectedToSlot cfg st (some cid) target).2.containers cid
        = some { id := cid, status := "IN_YARD", slotId := some target }
    ∧ lookupSlot (moveSelectedToSlot cfg st (some cid) target).2.layout target
        = lookupSlot st.layout target ++ [cid] := by
  have hfil : (lookupSlot st.layout target).filter (fun x => x != cid)
      = lookupSlot st.layout target := filter_bne_of_not_mem hnotin
  simp only [moveSelectedToSlot, lookupSlot_mapFilter, hfil, hunknown]
  rw [if_neg (by omega)]
  refine ⟨rfl, ?_, ?_⟩
  · rw [getObj_setObj_self]
  · rw [lookupSlot_setObj_self]

theorem move_unknown_container_commits_witness :
    getObj stFull.containers "GHOST" = none
    ∧ "GHOST" ∉ lookupSlot stFull.layout "A-R01-C02"
    ∧ (lookupSlot stFull.layout "A-R01-C02").length < cfgB2.stackLimit
    ∧ ((moveSelectedToSlot cfgB2 stFull (some "GHOST") "A-R01-C02").1 = MoveResult.moved
       ∧ getObj (moveSelectedToSlot cfgB2 stFull (some "GHOST") "A-R01-C02").2.containers
           "GHOST" = some { id := "GHOST", status := "IN_YARD", slotId := some "A-R01-C02" }
       ∧ lookupSlot (moveSelectedToSlot cfgB2 stFull (some "GHOST") "A-R01-C02").2.layout
           "A-R01-C02" = lookupSlot stFull.layout "A-R01-C02" ++ ["GHOST"]) :=
  ⟨by decide, by decide, by decide,
    move_unknown_container_commits cfgB2 stFull "GHOST" "A-R01-C02"
      (by decide) (by decide) (by decide)⟩

/-- C8: `reorder(slotId, fromIndex, toIndex)` with either index outside
[0, |stack|) is a silent no-op — it raises nothing and the whole engine state
(Layout included) is returned unchanged. -/
theorem reorder_invalid_index_noop (st : EngineState) (slotId : String)
    (fromIndex toIndex : Int)
    (h : fromIndex < 0 ∨ ((lookupSlot st.layout slotId).length : Int) ≤ fromIndex
       ∨ toIndex < 0 ∨ ((lookupSlot st.layout slotId).length : Int) ≤ toIndex) :
    reorderWithinSlot st slotId fromIndex toIndex = st := by
  simp only [reorderWithinSlot]
  split_ifs with h1 h2
  · rfl
  · rfl
  · exfalso
    push_neg at h1 h2
    rcases h with h | h | h | h <;> omega

theorem reorder_invalid_index_noop_witness :
    ((-1 : Int) < 0 ∨ ((lookupSlot stFull.layout "A-R01-C01").length : Int) ≤ -1
      ∨ (5 : Int) < 0 ∨ ((lookupSlot stFull.layout "A-R01-C01").length : Int) ≤ 5)
    ∧ reorderWithinSlot stFull "A-R01-C01" (-1) 5 = stFull :=
  ⟨by decide,
    reorder_invalid_index_noop stFull "A-R01-C01" (-1) 5 (by decide)⟩

/-- C10: moving a container to the very slot that already holds it does not
fail even when that slot is at capacity: the capacity check runs on the
working copy after the container was removed, so the move commits and the
container ends at the top (most-recent end) of the same stack. -/
theorem move_within_full_slot_succeeds (cfg : Config) (st : EngineState)
    (cid target : String)
    (hmem : cid ∈ lookupSlot st.layout target)
    (hnd : (lookupSlot st.layout target).Nodup)
    (hcap : (lookupSlot st.layout target).length = cfg.stackLimit) :
    (moveSelectedToSlot cfg st (some cid) target).1 = MoveResult.moved
    ∧ lookupSlot (moveSelectedToSlot cfg st (some cid) target).2.layout target
        = (lookupSlot st.layout target).filter (fun x => x != cid) ++ [cid] := by
  have hlen := length_filter_bne_of_nodup hnd hmem
  have hpos : 0 < (lookupSlot st.layout target).length := List.length_pos.2 (by
    intro he; rw [he] at hmem; cases hmem)
  simp only [moveSelectedToSlot, lookupSlot_mapFilter]
  rw [if_neg (by omega)]
  refine ⟨rfl, ?_⟩
  rw [lookupSlot_setObj_self]

theorem move_within_full_slot_succeeds_witness :
    "a" ∈ lookupSlot stFull.layout "A-R01-C01"
    ∧ (lookupSlot stFull.layout "A-R01-C01").Nodup
    ∧ (lookupSlot stFull.layout "A-R01-C01").length = cfgB2.stackLimit
    ∧ ((moveSelectedToSlot cfgB2 stFull (some "a") "A-R01-C01").1 = MoveResult.moved
       ∧ lookupSlot (moveSelectedToSlot cfgB2 stFull (some "a") "A-R01-C01").2.layout
           "A-R01-C01"
         = (lookupSlot stFull.layout "A-R01-C01").filter (fun x => x != "a") ++ ["a"]) :=
  ⟨by decide, by decide, by decide,
    move_within_full_slot_succeeds cfgB2 stFull "a" "A-R01-C01"
      (by decide) (by decide) (by decide)⟩

/- ------------------------------------------------------------------ -/
/- Signature development (C9, C7).                                     -/
/- ------------------------------------------------------------------ -/

theorem string_data_inj {a b : String} (h : a.data = b.data) : a = b := by
  cases a
  cases b
  exact congrArg String.mk h

theorem slotSignature_data (xs : Stack) :
    (slotSignature xs).data = sigChars (xs.map String.data) := by
  induction xs with
  | nil => rfl
  | cons x xs ih =>
    cases xs with
    | nil => rfl
    | cons y ys =>
      show (x ++ "|" ++ slotSignature (y :: ys)).data
        = x.data ++ '|' :: sigChars ((y :: ys).map String.data)
      rw [String.data_append, String.data_append, ih]
      simp

theorem pipe_split (a : List Char) : ∀ (b u v : List Char), '|' ∉ a → '|' ∉ b →
    a ++ '|' :: u = b ++ '|' :: v → a = b ∧ u = v := by
  induction a with
  | nil =>
    intro b u v _ hb h
    cases b with
    | nil => simpa using h
    | cons c cs =>
      rw [List.nil_append, List.cons_append] at h
      injection h with h1 h2
      subst h1
      exact absurd (List.mem_cons_self _ _) hb
  | cons c cs ih =>
    intro b u v ha hb h
    cases b with
    | nil =>
      rw [List.nil_append, List.cons_append] at h
      injection h with h1 h2
      rw [h1] at ha
      exact absurd (List.mem_cons_self _ _) ha
    | cons d ds =>
      rw [List.cons_append, List.cons_append] at h
      injection h with h1 h2
      subst h1
      have hr := ih ds u v (fun hm => ha (List.mem_cons_of_mem _ hm))
        (fun hm => hb (List.mem_cons_of_mem _ hm)) h2
      exact ⟨by rw [hr.1], hr.2⟩

theorem sigChars_cons_cons (a b : List Char) (l : List (List Char)) :
    sigChars (a :: b :: l) = a ++ '|' :: sigChars (b :: l) := rfl

theorem sigChars_ne_nil {b : List Char} {bs : List (List Char)}
    (hb : b ≠ []) : sigChars (b :: bs) ≠ [] := by
  cases bs with
  | nil => simpa [sigChars] using hb
  | cons c cs =>
    rw [sigChars_cons_cons]
    simp

theorem sigChars_inj_of_nonempty : ∀ s1 s2 : List (List Char),
    (∀ x ∈ s1, x ≠ [] ∧ '|' ∉ x) → (∀ x ∈ s2, x ≠ [] ∧ '|' ∉ x) →
    sigChars s1 = sigChars s2 → s1 = s2 := by
  intro s1
  induction s1 with
  | nil =>
    intro s2 _ h2 h
    cases s2 with
    | nil => rfl
    | cons b bs =>
      exact absurd h.symm (sigChars_ne_nil (h2 b (List.mem_cons_self _ _)).1)
  | cons a as ih =>
    intro s2 h1 h2 h
    cases s2 with
    | nil =>
      exact absurd h (sigChars_ne_nil (h1 a (List.mem_cons_self _ _)).1)
    | cons b bs =>
      cases as with
      | nil =>
        cases bs with
        | nil => simpa [sigChars] using h
        | cons c cs =>
          exfalso
          apply (h1 a (List.mem_cons_self _ _)).2
          rw [show sigChars [a] = a from rfl, sigChars_cons_cons] at h
          rw [h]
          exact List.mem_append.2 (Or.inr (List.mem_cons_self _ _))
      | cons a2 as2 =>
        cases bs with
        | nil =>
          exfalso
          apply (h2 b (List.mem_cons_self _ _)).2
          rw [sigChars_cons_cons, show sigChars [b] = b from rfl] at h
          rw [← h]
          exact List.mem_append.2 (Or.inr (List.mem_cons_self _ _))
        | cons b2 bs2 =>
          rw [sigChars_cons_cons, sigChars_cons_cons] at h
          have hsp := pipe_split a b _ _ (h1 a (List.mem_cons_self _ _)).2
            (h2 b (List.mem_cons_self _ _)).2 h
          have htail := ih (b2 :: bs2)
            (fun x hx => h1 x (List.mem_cons_of_mem _ hx))
            (fun x hx => h2 x (List.mem_cons_of_mem _ hx)) hsp.2
          rw [hsp.1, htail]

theorem sigChars_inj_of_length : ∀ s1 s2 : List (List Char),
    (∀ x ∈ s1, '|' ∉ x) → (∀ x ∈ s2, '|' ∉ x) → s1.length = s2.length →
    sigChars s1 = sigChars s2 → s1 = s2 := by
  intro s1
  induction s1 with
  | nil =>
    intro s2 _ _ hlen _
    cases s2 with
    | nil => rfl
    | cons b bs => cases hlen
  | cons a as ih =>
    intro s2 h1 h2 hlen h
    cases s2 with
    | nil => cases hlen
    | cons b bs =>
      cases as with
      | nil =>
        cases bs with
        | nil => simpa [sigChars] using h
        | cons c cs => simp at hlen
      | cons a2 as2 =>
        cases bs with
        | nil => simp at hlen
        | cons b2 bs2 =>
          rw [sigChars_cons_cons, sigChars_cons_cons] at h
          have hsp := pipe_split a b _ _ (h1 a (List.mem_cons_self _ _))
            (h2 b (List.mem_cons_self _ _)) h
          have htail := ih (b2 :: bs2)
            (fun x hx => h1 x (List.mem_cons_of_mem _ hx))
            (fun x hx => h2 x (List.mem_cons_of_mem _ hx))
            (by simpa using hlen) hsp.2
          rw [hsp.1, htail]

theorem slotSignature_inj_of_length {s1 s2 : Stack}
    (h1 : ∀ id ∈ s1, '|' ∉ id.data) (h2 : ∀ id ∈ s2, '|' ∉ id.data)
    (hlen : s1.length = s2.length) (h : slotSignature s1 = slotSignature s2) :
    s1 = s2 := by
  have hd : sigChars (s1.map String.data) = sigChars (s2.map String.data) := by
    rw [← slotSignature_data, ← slotSignature_data, h]
  have hmap := sigChars_inj_of_length (s1.map String.data) (s2.map String.data)
    (by intro x hx; rcases List.mem_map.1 hx with ⟨id, hid, rfl⟩; exact h1 id hid)
    (by intro x hx; rcases List.mem_map.1 hx with ⟨id, hid, rfl⟩; exact h2 id hid)
    (by simpa using hlen) hd
  exact List.map_injective_iff.2 (fun a b hab => string_data_inj hab) hmap

theorem slotSignature_inj_of_nonempty {s1 s2 : Stack}
    (h1 : ∀ id ∈ s1, id ≠ "" ∧ '|' ∉ id.data)
    (h2 : ∀ id ∈ s2, id ≠ "" ∧ '|' ∉ id.data)
    (h : slotSignature s1 = slotSignature s2) : s1 = s2 := by
  have hd : sigChars (s1.map String.data) = sigChars (s2.map String.data) := by
    rw [← slotSignature_data, ← slotSignature_data, h]
  have hne : ∀ id : String, id ≠ "" → id.data ≠ [] := by
    intro id hne hdata
    exact hne (string_data_inj (by rw [hdata]))
  have hmap := sigChars_inj_of_nonempty (s1.map String.data) (s2.map String.data)
    (by intro x hx; rcases List.mem_map.1 hx with ⟨id, hid, rfl⟩
        exact ⟨hne id (h1 id hid).1, (h1 id hid).2⟩)
    (by intro x hx; rcases List.mem_map.1 hx with ⟨id, hid, rfl⟩
        exact ⟨hne id (h2 id hid).1, (h2 id hid).2⟩)
    hd
  exact List.map_injective_iff.2 (fun a b hab => string_data_inj hab) hmap

/-- C9: for stacks of container identifiers (identifiers produced by
`randomId` are nonempty and never contain the separator "|"), two stacks
have equal Signature iff they are the same identifiers in the same order;
and the empty stack's Signature is the empty string. -/
theorem signature_faithful (s1 s2 : Stack)
    (h1 : ∀ id ∈ s1, id ≠ "" ∧ '|' ∉ id.data)
    (h2 : ∀ id ∈ s2, id ≠ "" ∧ '|' ∉ id.data) :
    (slotSignature s1 = slotSignature s2 ↔ s1 = s2) ∧ slotSignature [] = "" :=
  ⟨⟨fun h => slotSignature_inj_of_nonempty h1 h2 h, fun h => by rw [h]⟩, rfl⟩

theorem signature_faithful_witness :
    (∀ id ∈ ["CONT-111111", "CONT-222222"], id ≠ "" ∧ '|' ∉ id.data)
    ∧ (∀ id ∈ ["CONT-222222", "CONT-111111"], id ≠ "" ∧ '|' ∉ id.data)
    ∧ ((slotSignature ["CONT-111111", "CONT-222222"]
          = slotSignature ["CONT-222222", "CONT-111111"]
        ↔ ["CONT-111111", "CONT-222222"] = ["CONT-222222", "CONT-111111"])
       ∧ slotSignature [] = "") :=
  ⟨by decide, by decide,
    signature_faithful ["CONT-111111", "CONT-222222"]
      ["CONT-222222", "CONT-111111"] (by decide) (by decide)⟩

/- ------------------------------------------------------------------ -/
/- Acknowledge / change detection (C5).                                -/
/- ------------------------------------------------------------------ -/

theorem lookupSig_cons (k v : String) (m : SigMap) (s : String) :
    lookupSig ((k, v) :: m) s = if k = s then v else lookupSig m s := by
  rw [lookupSig, getObj_cons]
  by_cases h : k = s
  · rw [if_pos h, if_pos h]; rfl
  · rw [if_neg h, if_neg h]; rfl

theorem lookupSig_map_self (f : String → String) (l : List String) (s : String)
    (h : s ∈ l) : lookupSig (l.map fun t => (t, f t)) s = f s := by
  induction l with
  | nil => cases h
  | cons t l ih =>
    simp only [List.map_cons]
    rw [lookupSig_cons]
    by_cases ht : t = s
    · rw [if_pos ht, ht]
    · rw [if_neg ht]
      apply ih
      rcases List.mem_cons.1 h with h1 | h1
      · exact absurd h1.symm ht
      · exact h1

theorem changedSlots_after_snapshot (cfg : Config) (st : EngineState)
    (hnd : (st.layout.map Prod.fst).Nodup)
    (hsub : ∀ s ∈ st.layout.map Prod.fst, s ∈ allSlots cfg)
    (hsup : ∀ s ∈ allSlots cfg, s ∈ st.layout.map Prod.fst) :
    computeChangedSlots st.layout
      ((allSlots cfg).map fun s => (s, slotSignature (lookupSlot st.layout s))) = [] := by
  unfold computeChangedSlots
  rw [List.append_eq_nil]
  constructor
  · rw [List.map_eq_nil_iff, List.filter_eq_nil_iff]
    intro p hp
    have hkey : p.1 ∈ st.layout.map Prod.fst := List.mem_map.2 ⟨p, hp, rfl⟩
    have hall : p.1 ∈ allSlots cfg := hsub _ hkey
    have hlook : lookupSlot st.layout p.1 = p.2 := lookupSlot_eq_of_mem hnd hp
    rw [lookupSig_map_self _ _ _ hall, hlook]
    simp
  · rw [List.filter_eq_nil_iff]
    intro s hs
    have hall : s ∈ allSlots cfg := by
      have : (fun p : String × String => p.1) ∘
          (fun t => (t, slotSignature (lookupSlot st.layout t))) = id := rfl
      rw [List.map_map, this, List.map_id] at hs
      exact hs
    have hkey : s ∈ st.layout.map Prod.fst := hsup _ hall
    rw [Bool.not_eq_true', ← Bool.not_eq_true]
    intro hc
    rw [Bool.not_eq_true] at hc
    exact absurd ((any_keys_iff st.layout s).2 hkey) (by rw [hc]; simp)

/-- C5: immediately after `acknowledge()` (snapshotSignatures) the
changed-slot set is empty, and a second acknowledge with no intervening
mutation also leaves it empty — the whole baseline is replaced by the
current per-slot signatures, empty slots included.  The hypotheses state the
structural well-formedness every engine layout has (distinct keys, exactly
the grid's slots). -/
theorem acknowledge_clears_changes (cfg : Config) (st : EngineState)
    (hnd : (st.layout.map Prod.fst).Nodup)
    (hsub : ∀ s ∈ st.layout.map Prod.fst, s ∈ allSlots cfg)
    (hsup : ∀ s ∈ allSlots cfg, s ∈ st.layout.map Prod.fst) :
    computeChangedSlots (snapshotSignatures cfg st).layout
        (snapshotSignatures cfg st).prevSig = []
    ∧ computeChangedSlots
        (snapshotSignatures cfg (snapshotSignatures cfg st)).layout
        (snapshotSignatures cfg (snapshotSignatures cfg st)).prevSig = [] := by
  have h1 := changedSlots_after_snapshot cfg st hnd hsub hsup
  exact ⟨h1, h1⟩

theorem acknowledge_clears_changes_witness :
    (stFull.layout.map Prod.fst).Nodup
    ∧ (∀ s ∈ stFull.layout.map Prod.fst, s ∈ allSlots cfgB2)
    ∧ (∀ s ∈ allSlots cfgB2, s ∈ stFull.layout.map Prod.fst)
    ∧ (computeChangedSlots (snapshotSignatures cfgB2 stFull).layout
         (snapshotSignatures cfgB2 stFull).prevSig = []
       ∧ computeChangedSlots
           (snapshotSignatures cfgB2 (snapshotSignatures cfgB2 stFull)).layout
           (snapshotSignatures cfgB2 (snapshotSignatures cfgB2 stFull)).prevSig = []) :=
  ⟨by decide, by decide, by decide,
    acknowledge_clears_changes cfgB2 stFull (by decide) (by decide) (by decide)⟩

/- ------------------------------------------------------------------ -/
/- Reorder splice lemmas (C7).                                         -/
/- ------------------------------------------------------------------ -/

/-- Result of the two JS splices of `reorderWithinSlot` on a stack:
remove the element at `f'`, reinsert it at `t'`. -/
def spliceMove (stack : Stack) (f' t' : Nat) : Stack :=
  (stack.take f' ++ stack.drop (f' + 1)).take t'
    ++ stack.getD f' "" :: (stack.take f' ++ stack.drop (f' + 1)).drop t'

theorem spliceMove_length (stack : Stack) (f' t' : Nat) (hf' : f' < stack.length) :
    (spliceMove stack f' t').length = stack.length := by
  unfold spliceMove
  rw [List.length_append, List.length_cons, List.length_take, List.length_drop,
    List.length_append, List.length_take, List.length_drop]
  omega

theorem spliceMove_count (stack : Stack) (f' t' : Nat) (hf' : f' < stack.length)
    (x : String) : (spliceMove stack f' t').count x = stack.count x := by
  unfold spliceMove
  have hitem : stack.getD f' "" = stack[f'] := List.getD_eq_getElem stack "" hf'
  have hsplit : stack.take f' ++ stack[f'] :: stack.drop (f' + 1) = stack := by
    rw [List.getElem_cons_drop stack f' hf', List.take_append_drop]
  have hrem : ((stack.take f' ++ stack.drop (f' + 1)).take t').count x
      + ((stack.take f' ++ stack.drop (f' + 1)).drop t').count x
      = (stack.take f').count x + (stack.drop (f' + 1)).count x := by
    rw [← List.count_append, List.take_append_drop, List.count_append]
  have hstack : stack.count x = (stack.take f').count x
      + ((stack[f'] :: stack.drop (f' + 1)).count x) := by
    conv_lhs => rw [← hsplit]
    rw [List.count_append]
  rw [List.count_append, List.count_cons, hitem, hstack, List.count_cons]
  omega

theorem spliceMove_getElem (stack : Stack) (f' t' : Nat) (hf' : f' < stack.length)
    (ht' : t' < stack.length) : (spliceMove stack f' t')[t']? = some stack[f'] := by
  unfold spliceMove
  have hitem : stack.getD f' "" = stack[f'] := List.getD_eq_getElem stack "" hf'
  have htake : ((stack.take f' ++ stack.drop (f' + 1)).take t').length = t' := by
    rw [List.length_take, List.length_append, List.length_take, List.length_drop]
    omega
  rw [List.getElem?_append_right (le_of_eq htake), htake, Nat.sub_self, hitem]
  simp

theorem spliceMove_ne (stack : Stack) (f' t' : Nat) (hf' : f' < stack.length)
    (ht' : t' < stack.length) (hne : f' ≠ t') (hnd : stack.Nodup) :
    spliceMove stack f' t' ≠ stack := by
  have hij : stack[f'] ≠ stack[t'] := by
    intro he
    apply hne
    have hfin : (⟨f', hf'⟩ : Fin stack.length) = ⟨t', ht'⟩ := by
      apply (List.Nodup.get_inj_iff hnd).1
      simpa [List.get_eq_getElem] using he
    exact congrArg Fin.val hfin
  intro heq
  have hg1 := spliceMove_getElem stack f' t' hf' ht'
  rw [heq, List.getElem?_eq_getElem ht'] at hg1
  exact hij (Option.some.inj hg1).symm

theorem spliceMove_sig_ne (stack : Stack) (f' t' : Nat) (hf' : f' < stack.length)
    (ht' : t' < stack.length) (hne : f' ≠ t') (hnd : stack.Nodup)
    (hpipe : ∀ id ∈ stack, '|' ∉ id.data) :
    slotSignature (spliceMove stack f' t') ≠ slotSignature stack := by
  intro hs
  apply spliceMove_ne stack f' t' hf' ht' hne hnd
  apply slotSignature_inj_of_length _ hpipe (spliceMove_length stack f' t' hf') hs
  intro id hid
  apply hpipe
  have hpos : 0 < stack.count id := by
    rw [← spliceMove_count stack f' t' hf' id]
    exact List.count_pos_iff.2 hid
  exact List.count_pos_iff.1 hpos

theorem reorder_valid_eq (st : EngineState) (slotId : String) (f t : Int)
    (hf0 : 0 ≤ f) (hfl : f < ((lookupSlot st.layout slotId).length : Int))
    (ht0 : 0 ≤ t) (htl : t < ((lookupSlot st.layout slotId).length : Int)) :
    reorderWithinSlot st slotId f t
      = { st with
          layout :=
            setObj st.layout slotId
              (spliceMove (lookupSlot st.layout slotId) f.toNat t.toNat) } := by
  simp only [reorderWithinSlot, spliceMove]
  rw [if_neg (by omega), if_neg (by omega)]

/-- C7: after an acknowledge, a proper reorder (two distinct in-range
indices) of a slot holding 2 or more containers changes the slot's
Signature, puts the slot into the changed-slot set, and leaves the multiset
of identifiers in the stack unchanged.  (Duplicate-free stacks and |-free
identifiers are what every reachable engine state has.) -/
theorem reorder_signature_sensitivity (cfg : Config) (st : EngineState)
    (slotId : String) (fromIndex toIndex : Int)
    (hnd : (st.layout.map Prod.fst).Nodup)
    (hslot : slotId ∈ allSlots cfg)
    (hlen : 2 ≤ (lookupSlot st.layout slotId).length)
    (hstacknd : (lookupSlot st.layout slotId).Nodup)
    (hpipe : ∀ id ∈ lookupSlot st.layout slotId, '|' ∉ id.data)
    (hf0 : 0 ≤ fromIndex)
    (hfl : fromIndex < ((lookupSlot st.layout slotId).length : Int))
    (ht0 : 0 ≤ toIndex)
    (htl : toIndex < ((lookupSlot st.layout slotId).length : Int))
    (hft : fromIndex ≠ toIndex) :
    slotSignature (lookupSlot (reorderWithinSlot (snapshotSignatures cfg st)
        slotId fromIndex toIndex).layout slotId)
      ≠ slotSignature (lookupSlot st.layout slotId)
    ∧ slotId ∈ computeChangedSlots
        (reorderWithinSlot (snapshotSignatures cfg st) slotId fromIndex toIndex).layout
        (reorderWithinSlot (snapshotSignatures cfg st) slotId fromIndex toIndex).prevSig
    ∧ ∀ x, (lookupSlot (reorderWithinSlot (snapshotSignatures cfg st)
        slotId fromIndex toIndex).layout slotId).count x
        = (lookupSlot st.layout slotId).count x := by
  have hlay : (snapshotSignatures cfg st).layout = st.layout := rfl
  have hred := reorder_valid_eq (snapshotSignatures cfg st) slotId fromIndex toIndex
    hf0 hfl ht0 htl
  rw [hlay] at hred
  rw [hred]
  simp only [snapshotSignatures]
  rw [lookupSlot_setObj_self]
  have hf' : fromIndex.toNat < (lookupSlot st.layout slotId).length := by omega
  have ht' : toIndex.toNat < (lookupSlot st.layout slotId).length := by omega
  have hne' : fromIndex.toNat ≠ toIndex.toNat := by omega
  have hsigne := spliceMove_sig_ne (lookupSlot st.layout slotId)
    fromIndex.toNat toIndex.toNat hf' ht' hne' hstacknd hpipe
  refine ⟨hsigne, ?_, fun x => spliceMove_count _ _ _ hf' x⟩
  have hmemEntry : (slotId, spliceMove (lookupSlot st.layout slotId)
        fromIndex.toNat toIndex.toNat)
      ∈ setObj st.layout slotId
        (spliceMove (lookupSlot st.layout slotId) fromIndex.toNat toIndex.toNat) := by
    have hk2 : slotId ∈ (setObj st.layout slotId
        (spliceMove (lookupSlot st.layout slotId)
          fromIndex.toNat toIndex.toNat)).map Prod.fst :=
      (mem_keys_setObj _).2 (Or.inr rfl)
    have hm := mem_of_lookupSlot hk2
    rwa [lookupSlot_setObj_self] at hm
  apply List.mem_append.2
  left
  apply List.mem_map.2
  refine ⟨_, List.mem_filter.2 ⟨hmemEntry, ?_⟩, rfl⟩
  rw [lookupSig_map_self _ _ _ hslot]
  simpa [bne_iff_ne] using hsigne

theorem reorder_signature_sensitivity_witness :
    (stFull.layout.map Prod.fst).Nodup
    ∧ "A-R01-C01" ∈ allSlots cfgB2
    ∧ 2 ≤ (lookupSlot stFull.layout "A-R01-C01").length
    ∧ (lookupSlot stFull.layout "A-R01-C01").Nodup
    ∧ (∀ id ∈ lookupSlot stFull.layout "A-R01-C01", '|' ∉ id.data)
    ∧ (0 : Int) ≠ 1
    ∧ (slotSignature (lookupSlot (reorderWithinSlot (snapshotSignatures cfgB2 stFull)
          "A-R01-C01" 0 1).layout "A-R01-C01")
        ≠ slotSignature (lookupSlot stFull.layout "A-R01-C01")
       ∧ "A-R01-C01" ∈ computeChangedSlots
          (reorderWithinSlot (snapshotSignatures cfgB2 stFull) "A-R01-C01" 0 1).layout
          (reorderWithinSlot (snapshotSignatures cfgB2 stFull) "A-R01-C01" 0 1).prevSig
       ∧ ∀ x, (lookupSlot (reorderWithinSlot (snapshotSignatures cfgB2 stFull)
          "A-R01-C01" 0 1).layout "A-R01-C01").count x
          = (lookupSlot stFull.layout "A-R01-C01").count x) :=
  ⟨by decide, by decide, by decide, by decide, by decide, by decide,
    reorder_signature_sensitivity cfgB2 stFull "A-R01-C01" 0 1
      (by decide) (by decide) (by decide) (by decide) (by decide)
      (by decide) (by decide) (by decide) (by decide) (by decide)⟩

/- ------------------------------------------------------------------ -/
/- Invariant preservation (C6).                                        -/
/- ------------------------------------------------------------------ -/

theorem WF_iff_counts (st : EngineState) : WF st ↔
    (st.layout.map Prod.fst).Nodup
    ∧ (∀ x, (st.inboundIds ++ stacksFlat st.layout).count x ≤ 1)
    ∧ (∀ x, x ∈ st.containers.map Prod.fst
        ↔ 0 < (st.inboundIds ++ stacksFlat st.layout).count x) := by
  unfold WF
  constructor
  · rintro ⟨h1, h2, h3, h4⟩
    exact ⟨h1, List.nodup_iff_count_le_one.1 h2,
      fun x => ⟨fun hx => List.count_pos_iff.2 (h3 x hx),
        fun hx => h4 x (List.count_pos_iff.1 hx)⟩⟩
  · rintro ⟨h1, h2, h3⟩
    exact ⟨h1, List.nodup_iff_count_le_one.2 h2,
      fun x hx => List.count_pos_iff.1 ((h3 x).1 hx),
      fun x hx => (h3 x).2 (List.count_pos_iff.2 hx)⟩

theorem WF_snapshot (cfg : Config) (st : EngineState) (h : WF st) :
    WF (snapshotSignatures cfg st) := h

theorem WF_reorder (st : EngineState) (slotId : String) (f t : Int) (h : WF st) :
    WF (reorderWithinSlot st slotId f t) := by
  by_cases h1 : f < 0 ∨ ((lookupSlot st.layout slotId).length : Int) ≤ f
  · rw [reorder_invalid_index_noop st slotId f t (by tauto)]
    exact h
  · by_cases h2 : t < 0 ∨ ((lookupSlot st.layout slotId).length : Int) ≤ t
    · rw [reorder_invalid_index_noop st slotId f t (by tauto)]
      exact h
    · push_neg at h1 h2
      rw [reorder_valid_eq st slotId f t h1.1 h1.2 h2.1 h2.2]
      rw [WF_iff_counts] at h ⊢
      obtain ⟨hk, hle, hmem⟩ := h
      have hf' : f.toNat < (lookupSlot st.layout slotId).length := by omega
      have hflat : ∀ x, (stacksFlat (setObj st.layout slotId
          (spliceMove (lookupSlot st.layout slotId) f.toNat t.toNat))).count x
          = (stacksFlat st.layout).count x := by
        intro x
        have hset := count_stacksFlat_setObj st.layout slotId
          (spliceMove (lookupSlot st.layout slotId) f.toNat t.toNat) x hk
        have hsp := spliceMove_count (lookupSlot st.layout slotId) f.toNat t.toNat hf' x
        omega
      refine ⟨keys_setObj_nodup _ hk, fun x => ?_, fun x => ?_⟩
      · have := hle x
        simp only [List.count_append] at this ⊢
        rw [hflat x]
        exact this
      · have := hmem x
        simp only [List.count_append] at this ⊢
        rw [hflat x]
        exact this

theorem foldl_cons_eq (ids Q : List String) :
    ids.foldl (fun q id => id :: q) Q = ids.reverse ++ Q := by
  induction ids generalizing Q with
  | nil => rfl
  | cons i ids ih =>
    simp only [List.foldl_cons, List.reverse_cons, ih, List.append_assoc,
      List.singleton_append]

theorem mem_keys_foldl_setObj (ids : List String) (C : Store) (x : String) :
    x ∈ (ids.foldl (fun cs id => setObj cs id (makeContainer id)) C).map Prod.fst
      ↔ x ∈ C.map Prod.fst ∨ x ∈ ids := by
  induction ids generalizing C with
  | nil => simp
  | cons i ids ih =>
    simp only [List.foldl_cons, ih, mem_keys_setObj, List.mem_cons]
    tauto

theorem WF_poll (st : EngineState) (ids : List String) (h : WF st)
    (hnd : ids.Nodup) (hfresh : ∀ id ∈ ids, id ∉ st.containers.map Prod.fst) :
    WF (pollInbound st ids) := by
  rw [WF_iff_counts] at h ⊢
  obtain ⟨hk, hle, hmem⟩ := h
  simp only [pollInbound, foldl_cons_eq]
  refine ⟨hk, fun x => ?_, fun x => ?_⟩
  · simp only [List.append_assoc, List.count_append, List.count_reverse]
    have h1 := hle x
    simp only [List.count_append] at h1
    by_cases hx : x ∈ ids
    · have hids : ids.count x = 1 := by
        have ha := List.nodup_iff_count_le_one.1 hnd x
        have hb := List.count_pos_iff.2 hx
        omega
      have hzero : (st.inboundIds ++ stacksFlat st.layout).count x = 0 := by
        by_contra hc
        exact hfresh x hx ((hmem x).2 (by omega))
      simp only [List.count_append] at hzero
      omega
    · have hids : ids.count x = 0 := List.count_eq_zero.2 hx
      omega
  · simp only [mem_keys_foldl_setObj, List.append_assoc, List.count_append,
      List.count_reverse]
    have h1 := hmem x
    simp only [List.count_append] at h1
    by_cases hx : x ∈ ids
    · have hb := List.count_pos_iff.2 hx
      constructor
      · intro _; omega
      · intro _; exact Or.inr hx
    · have hids : ids.count x = 0 := List.count_eq_zero.2 hx
      constructor
      · intro hin
        rcases hin with hin | hin
        · have := h1.1 hin; omega
        · exact absurd hin hx
      · intro hc
        exact Or.inl (h1.2 (by omega))

theorem WF_evict (st : EngineState) (slotId cid : String) (h : WF st)
    (hvalid : cid ∈ lookupSlot st.layout slotId) :
    WF (removeFromSlot st slotId cid) := by
  rw [WF_iff_counts] at h ⊢
  obtain ⟨hk, hle, hmem⟩ := h
  simp only [removeFromSlot]
  refine ⟨keys_setObj_nodup _ hk, fun x => ?_, fun x => ?_⟩
  · have hset := count_stacksFlat_setObj st.layout slotId
      ((lookupSlot st.layout slotId).filter fun y => y != cid) x hk
    have hfil := count_filter_bne (lookupSlot st.layout slotId) cid x
    have hfil2 := count_filter_bne st.inboundIds cid x
    have hlk := count_lookupSlot_le st.layout slotId x hk
    have h1 := hle x
    simp only [List.count_append, List.count_cons] at h1 ⊢
    by_cases hx : x = cid
    · subst hx
      rw [if_pos rfl] at hfil hfil2
      have hcidpos := List.count_pos_iff.2 hvalid
      simp only [beq_self_eq_true, if_true]
      omega
    · have hbx : (cid == x) = false := by
        simp only [beq_eq_false_iff_ne, ne_eq]
        exact fun he => hx he.symm
      rw [if_neg hx] at hfil hfil2
      simp only [hbx, Bool.false_eq_true, if_false]
      omega
  · have hset := count_stacksFlat_setObj st.layout slotId
      ((lookupSlot st.layout slotId).filter fun y => y != cid) x hk
    have hfil := count_filter_bne (lookupSlot st.layout slotId) cid x
    have hfil2 := count_filter_bne st.inboundIds cid x
    rw [mem_keys_setObj]
    simp only [List.count_append, List.count_cons]
    by_cases hx : x = cid
    · subst hx
      rw [if_pos rfl] at hfil hfil2
      simp only [beq_self_eq_true, if_true]
      constructor
      · intro _
        omega
      · intro _
        exact Or.inr trivial
    · have hbx : (cid == x) = false := by
        simp only [beq_eq_false_iff_ne, ne_eq]
        exact fun he => hx he.symm
      rw [if_neg hx] at hfil hfil2
      simp only [hbx, Bool.false_eq_true, if_false]
      have h3 := hmem x
      simp only [List.count_append] at h3
      constructor
      · intro hin
        rcases hin with hin | hin
        · have := h3.1 hin
          omega
        · exact absurd hin hx
      · intro hc
        exact Or.inl (h3.2 (by omega))

theorem WF_move (cfg : Config) (st : EngineState) (sel : Option String)
    (target : String) (h : WF st) :
    WF (moveSelectedToSlot cfg st sel target).2 := by
  cases sel with
  | none => exact h
  | some cid =>
    simp only [moveSelectedToSlot, lookupSlot_mapFilter]
    by_cases hc : ((lookupSlot st.layout target).filter fun x => x != cid).length
        ≥ cfg.stackLimit
    · rw [if_pos hc]
      exact h
    · rw [if_neg hc]
      rw [WF_iff_counts] at h ⊢
      obtain ⟨hk, hle, hmem⟩ := h
      have hkNL : ((st.layout.map fun p => (p.1, p.2.filter fun x => x != cid)).map
          Prod.fst).Nodup := by
        rw [keys_mapFilter]
        exact hk
      refine ⟨keys_setObj_nodup _ hkNL, fun x => ?_, fun x => ?_⟩
      · have hsetNL := count_stacksFlat_setObj
          (st.layout.map fun p => (p.1, p.2.filter fun y => y != cid)) target
          (((lookupSlot st.layout target).filter fun y => y != cid) ++ [cid]) x hkNL
        rw [lookupSlot_mapFilter, stacksFlat_mapFilter] at hsetNL
        have hfilL := count_filter_bne (lookupSlot st.layout target) cid x
        have hfilF := count_filter_bne (stacksFlat st.layout) cid x
        have hfilI := count_filter_bne st.inboundIds cid x
        have hlk := count_lookupSlot_le st.layout target x hk
        have h1 := hle x
        simp only [List.count_append, List.count_cons, List.count_nil] at hsetNL h1 ⊢
        by_cases hx : x = cid
        · subst hx
          rw [if_pos rfl] at hfilL hfilF hfilI
          simp only [beq_self_eq_true, if_true] at hsetNL ⊢
          omega
        · have hbx : (cid == x) = false := by
            simp only [beq_eq_false_iff_ne, ne_eq]
            exact fun he => hx he.symm
          rw [if_neg hx] at hfilL hfilF hfilI
          simp only [hbx, Bool.false_eq_true, if_false] at hsetNL ⊢
          omega
      · have hsetNL := count_stacksFlat_setObj
          (st.layout.map fun p => (p.1, p.2.filter fun y => y != cid)) target
          (((lookupSlot st.layout target).filter fun y => y != cid) ++ [cid]) x hkNL
        rw [lookupSlot_mapFilter, stacksFlat_mapFilter] at hsetNL
        have hfilL := count_filter_bne (lookupSlot st.layout target) cid x
        have hfilF := count_filter_bne (stacksFlat st.layout) cid x
        have hfilI := count_filter_bne st.inboundIds cid x
        rw [mem_keys_setObj]
        simp only [List.count_append, List.count_cons, List.count_nil] at hsetNL ⊢
        by_cases hx : x = cid
        · subst hx
          rw [if_pos rfl] at hfilL hfilF hfilI
          simp only [beq_self_eq_true, if_true] at hsetNL ⊢
          constructor
          · intro _
            omega
          · intro _
            right
            trivial
        · have hbx : (cid == x) = false := by
            simp only [beq_eq_false_iff_ne, ne_eq]
            exact fun he => hx he.symm
          rw [if_neg hx] at hfilL hfilF hfilI
          simp only [hbx, Bool.false_eq_true, if_false] at hsetNL ⊢
          have h3 := hmem x
          simp only [List.count_append] at h3
          constructor
          · intro hin
            rcases hin with hin | hin
            · have := h3.1 hin
              omega
            · exact absurd hin hx
          · intro hc2
            exact Or.inl (h3.2 (by omega))

theorem WF_place_step {C : Store} {Q : List String} {L : Layout} {ps : SigMap}
    {cid : String} (slot : String)
    (h : WF ⟨C, Q, L, ps⟩) (hQ : Q.getLast? = some cid) :
    WF ⟨setObj C cid (placeRecord (getObj C cid) slot), Q.dropLast,
        setObj L slot (lookupSlot L slot ++ [cid]), ps⟩ := by
  rw [WF_iff_counts] at h ⊢
  dsimp only at h ⊢
  obtain ⟨hk, hle, hmem⟩ := h
  have hne : Q ≠ [] := by
    intro he
    rw [he] at hQ
    cases hQ
  have hlast : Q.getLast hne = cid := by
    have h2 := List.getLast?_eq_getLast Q hne
    rw [hQ] at h2
    exact (Option.some.inj h2).symm
  have hsplit : Q.dropLast ++ [cid] = Q := by
    rw [← hlast]
    exact List.dropLast_append_getLast hne
  have hloc : ∀ x, (Q.dropLast ++ stacksFlat (setObj L slot
      (lookupSlot L slot ++ [cid]))).count x = (Q ++ stacksFlat L).count x := by
    intro x
    have hset := count_stacksFlat_setObj L slot (lookupSlot L slot ++ [cid]) x hk
    have hQc : Q.dropLast.count x + [cid].count x = Q.count x := by
      rw [← List.count_append, hsplit]
    simp only [List.count_append] at hset ⊢
    omega
  refine ⟨keys_setObj_nodup _ hk, fun x => ?_, fun x => ?_⟩
  · rw [hloc x]
    exact hle x
  · rw [hloc x, mem_keys_setObj]
    by_cases hx : x = cid
    · subst hx
      have hcin : x ∈ Q := by
        rw [← hsplit]
        exact List.mem_append.2 (Or.inr (List.mem_cons_self _ _))
      have hpos : 0 < (Q ++ stacksFlat L).count x := by
        have hq := List.count_pos_iff.2 hcin
        simp only [List.count_append]
        omega
      constructor
      · intro _
        exact hpos
      · intro _
        exact Or.inr rfl
    · have h3 := hmem x
      constructor
      · intro hin
        rcases hin with hin | hin
        · exact h3.1 hin
        · exact absurd hin hx
      · intro hc
        exact Or.inl (h3.2 hc)

theorem WF_autoPlaceGo (cfg : Config) (stale : Layout) (ps : SigMap) :
    ∀ (fuel : Nat) (L : Layout) (C : Store) (Q : List String) (placed : Nat),
      WF ⟨C, Q, L, ps⟩ →
      WF ⟨(autoPlaceGo cfg stale fuel L C Q placed).2.1,
          (autoPlaceGo cfg stale fuel L C Q placed).2.2.1,
          (autoPlaceGo cfg stale fuel L C Q placed).1, ps⟩ := by
  intro fuel
  induction fuel with
  | zero =>
    intro L C Q placed h
    exact h
  | succ fuel ih =>
    intro L C Q placed h
    rcases hQ : Q.getLast? with _ | cid
    · simp only [autoPlaceGo, hQ]
      exact h
    · rcases hS : firstAvailableSlot cfg stale with _ | slot
      · simp only [autoPlaceGo, hQ, hS]
        exact h
      · simp only [autoPlaceGo, hQ, hS]
        exact ih _ _ _ _ (WF_place_step slot h hQ)

theorem WF_autoPlace (cfg : Config) (st : EngineState) (n : Nat) (h : WF st) :
    WF (autoPlace cfg st n).1 :=
  WF_autoPlaceGo cfg st.layout st.prevSig n st.layout st.containers st.inboundIds 0 h

theorem WF_applyOp (cfg : Config) (st : EngineState) (op : Op) (h : WF st)
    (hv : ValidOp st op) : WF (applyOp cfg st op) := by
  cases op with
  | poll ids => exact WF_poll st ids h hv.1 hv.2
  | auto n => exact WF_autoPlace cfg st n h
  | move sel target => exact WF_move cfg st sel target h
  | reorder s f t => exact WF_reorder st s f t h
  | evict s c => exact WF_evict st s c h hv
  | acknowledge => exact WF_snapshot cfg st h

theorem WF_applyOps (cfg : Config) (st : EngineState) (ops : List Op) (h : WF st)
    (hv : ValidSeq cfg st ops) : WF (applyOps cfg st ops) := by
  induction ops generalizing st with
  | nil => exact h
  | cons op ops ih => exact ih _ (WF_applyOp cfg st op h hv.1) hv.2

/-- C6: starting from a well-formed state, after any sequence of engine
operations (each invoked under the conditions the source guarantees at its
call sites), every container recorded in the Container Store occurs exactly
once in the concatenation of the Inbound Queue and all slot stacks — it is
in exactly one of the two, never both, never neither, and never twice in or
across stacks. -/
theorem container_in_exactly_one_place (cfg : Config) (st : EngineState)
    (ops : List Op) (hWF : WF st) (hvalid : ValidSeq cfg st ops) :
    ∀ id ∈ (applyOps cfg st ops).containers.map Prod.fst,
      ((applyOps cfg st ops).inboundIds
        ++ stacksFlat (applyOps cfg st ops).layout).count id = 1 := by
  have hWF2 := WF_applyOps cfg st ops hWF hvalid
  rw [WF_iff_counts] at hWF2
  obtain ⟨_, hle, hmem⟩ := hWF2
  intro id hid
  have h1 := (hmem id).1 hid
  have h2 := hle id
  omega

theorem container_in_exactly_one_place_witness :
    WF stC2
    ∧ ValidSeq cfgB2 stC2 [Op.poll ["d1"], Op.auto 2, Op.evict "A-R01-C01" "c1",
        Op.move (some "c2") "A-R01-C02", Op.reorder "A-R01-C01" 0 0, Op.acknowledge]
    ∧ ∀ id ∈ (applyOps cfgB2 stC2 [Op.poll ["d1"], Op.auto 2,
          Op.evict "A-R01-C01" "c1", Op.move (some "c2") "A-R01-C02",
          Op.reorder "A-R01-C01" 0 0, Op.acknowledge]).containers.map Prod.fst,
        ((applyOps cfgB2 stC2 [Op.poll ["d1"], Op.auto 2,
            Op.evict "A-R01-C01" "c1", Op.move (some "c2") "A-R01-C02",
            Op.reorder "A-R01-C01" 0 0, Op.acknowledge]).inboundIds
          ++ stacksFlat (applyOps cfgB2 stC2 [Op.poll ["d1"], Op.auto 2,
            Op.evict "A-R01-C01" "c1", Op.move (some "c2") "A-R01-C02",
            Op.reorder "A-R01-C01" 0 0, Op.acknowledge]).layout).count id = 1 :=
  ⟨by decide, by decide,
    container_in_exactly_one_place cfgB2 stC2
      [Op.poll ["d1"], Op.auto 2, Op.evict "A-R01-C01" "c1",
        Op.move (some "c2") "A-R01-C02", Op.reorder "A-R01-C01" 0 0, Op.acknowledge]
      (by decide) (by decide)⟩
